import Mathlib

/-!
Verification of the log-tail filter (pkg/kubelet/kuberuntime/logs/filter_log.go).

The Go code has two parts:
* a bounded ring buffer implemented as a mutating circular singly-linked
  list (circularLinkedList with Add / Len / VisitAll);
* a single-pass scanner (filterLogByStream) that measures the source length,
  then reads delimiter-terminated lines through a buffered reader, classifies
  each complete line with an external classifier, and records the offset and
  length of each line matching the requested stream in a ring buffer of
  capacity tailLines.

The embedding below is functional.  The pointer cycle of the linked list is
represented by the list of node values in order starting from head (the next
pointer of the last value returns to head) together with the index of the
node designated by the current pointer.  The io.ReadSeeker plus bufio.Reader
pair is represented by the trace of results successive ReadBytes calls
return: each result carries the bytes delivered and the error outcome
(no error, io.EOF, or another read error).  For an in-memory source the
trace is computed by bufReadResults; an arbitrary trace models a reader
backed by a file that may grow after its length was measured, or that fails
mid-scan.  Go errors are strings built exactly as the fmt.Errorf calls in
the source build them.
-/

set_option linter.unusedVariables false

/-- indexItem (filter_log.go lines 101-104): byte offset and byte length of
one matching complete line; both fields are int64 in the source. -/
structure indexItem where
  offset : Int
  length : Int
deriving DecidableEq, Repr

/-- circularLinkedList (filter_log.go lines 27-40).  capacity and length
mirror the Go fields.  nodes lists the value of every allocated node in
order starting from head and following next pointers (the next pointer of
the last node returns to head, closing the cycle); cur is the index of the
node the current pointer designates. -/
structure circularLinkedList where
  capacity : Nat
  length : Nat
  nodes : List indexItem
  cur : Nat
deriving DecidableEq, Repr

/-- newCircularLinkedList (filter_log.go lines 42-49): a negative capacity
yields the error fmt.Errorf("invalid capacity: %d", cap); otherwise the
zero-valued struct with the given capacity (head and current nil, length 0,
represented by an empty nodes list). -/
def newCircularLinkedList (cap : Int) : Except String circularLinkedList :=
  if cap < 0 then .error ("invalid capacity: " ++ toString cap)
  else .ok { capacity := cap.toNat, length := 0, nodes := [], cur := 0 }

/-- circularLinkedList.Add (filter_log.go lines 51-82), branch for branch:
capacity 0 returns immediately; length 0 allocates a single self-looping
node that head and current both designate; length = capacity advances
current to current.next and overwrites that node's value in place; otherwise
a new node is linked in after current (its next pointing back to head) and
current moves onto it. -/
def circularLinkedList.Add (l : circularLinkedList) (val : indexItem) : circularLinkedList :=
  if l.capacity = 0 then l
  else if l.length = 0 then
    { l with nodes := [val], cur := 0, length := 1 }
  else if l.length = l.capacity then
    let c := (l.cur + 1) % l.nodes.length
    { l with cur := c, nodes := l.nodes.set c val }
  else
    { l with length := l.length + 1,
             nodes := l.nodes.take (l.cur + 1) ++ val :: l.nodes.drop (l.cur + 1),
             cur := l.cur + 1 }

/-- circularLinkedList.Len (filter_log.go lines 84-86). -/
def circularLinkedList.Len (l : circularLinkedList) : Nat := l.length

/-- The sequence of node values VisitAll (filter_log.go lines 88-99) feeds to
its visitor: starting at current.next and following next pointers for
exactly length steps; nothing when the list is empty.  Walking the cycle
from index cur + 1 is rotating nodes by cur + 1 (List.rotate reduces the
shift modulo the cycle size, as the pointer walk does). -/
def circularLinkedList.visitSeq (l : circularLinkedList) : List indexItem :=
  if l.length = 0 then [] else (l.nodes.rotate (l.cur + 1)).take l.length

/-- The visiting loop of VisitAll: apply the visitor to each value in turn,
threading the state a Go closure would mutate, stopping at the first
error and propagating it. -/
def visitFrom {σ : Type} (f : indexItem → σ → Except String σ) :
    List indexItem → σ → Except String σ
  | [], s => .ok s
  | x :: xs, s =>
    match f x s with
    | .error e => .error e
    | .ok s1 => visitFrom f xs s1

/-- circularLinkedList.VisitAll (filter_log.go lines 88-99): immediate
success on an empty list, otherwise the visitor runs over visitSeq.  The
visitor is state-passing so that a theorem can observe which values were
visited, the way a Go visitor closure observes them by mutation. -/
def circularLinkedList.VisitAll {σ : Type} (l : circularLinkedList)
    (f : indexItem → σ → Except String σ) (s : σ) : Except String σ :=
  if l.length = 0 then .ok s else visitFrom f l.visitSeq s

/-- Outcome of one bufio.Reader.ReadBytes call: the bytes delivered together
with the error value (nil, io.EOF, or another read error). -/
inductive readErr where
  | noErr : readErr
  | eofErr : readErr
  | other : String → readErr
deriving DecidableEq, Repr

/-- One ReadBytes result: the line bytes (the delimiter included when it was
found) and the error outcome. -/
structure readResult where
  line : List Nat
  err : readErr
deriving DecidableEq, Repr

/-- The ReadBytes trace of an in-memory byte source: acc holds the bytes of
the line being assembled, most recent first.  Finding the delimiter emits a
complete line with a nil error; exhausting the source mid-line emits the
partial line with io.EOF; exhausting it on a line boundary emits nothing
more (the loop treats an exhausted trace as the empty read with io.EOF that
a real reader would return). -/
def readLinesGo (delim : Nat) (acc : List Nat) : List Nat → List readResult
  | [] => if acc.isEmpty then [] else [{ line := acc.reverse, err := .eofErr }]
  | b :: rest =>
    if b = delim then
      { line := (b :: acc).reverse, err := .noErr } :: readLinesGo delim [] rest
    else readLinesGo delim (b :: acc) rest

/-- The full ReadBytes trace of an in-memory byte source read from the
start. -/
def bufReadResults (delim : Nat) (bs : List Nat) : List readResult :=
  readLinesGo delim [] bs

/-- Modelled from the spec: the package-level delimiter eol = {'\n'} is
declared outside this excerpt; the spec says records are newline-delimited,
so the single delimiter byte is the newline byte 10. -/
def eol : List Nat := [10]

/-- logFilterResult (filter_log.go lines 106-110). -/
structure logFilterResult where
  logIndex : circularLinkedList
  maxLogLength : Int
  processedBytes : Int
deriving DecidableEq, Repr

/-- The scanning loop of filterLogByStream (filter_log.go lines 128-157),
branch for branch, over an arbitrary ReadBytes trace.  Each iteration takes
one read result, adds its byte count to readBytes, and first tests
err == io.EOF || readBytes > curSize: a hit breaks out of the loop,
discarding the line, and the accumulated triple is returned as success.
A remaining non-nil error returns fmt.Errorf("read line: %w", err).
Otherwise the line is complete: the classifier runs (its error returned
unchanged), a line of the wanted stream raises maxLength when longer and is
recorded as {offset: processedBytes, length: lineLength}, and processedBytes
grows by the line length in every case. -/
def filterLoop (extract : List Nat → Except String String) (wantStream : String)
    (curSize : Int) :
    List readResult → Int → Int → Int → circularLinkedList →
    Except String (circularLinkedList × Int × Int)
  | [], _, processedBytes, maxLength, l => .ok (l, maxLength, processedBytes)
  | r :: rest, readBytes, processedBytes, maxLength, l =>
    let lineLength : Int := r.line.length
    let readBytes1 := readBytes + lineLength
    if r.err = .eofErr ∨ readBytes1 > curSize then
      .ok (l, maxLength, processedBytes)
    else
      match r.err with
      | .other msg => .error ("read line: " ++ msg)
      | _ =>
        match extract r.line with
        | .error e => .error e
        | .ok streamType =>
          if streamType = wantStream then
            filterLoop extract wantStream curSize rest readBytes1
              (processedBytes + lineLength)
              (if lineLength > maxLength then lineLength else maxLength)
              (l.Add { offset := processedBytes, length := lineLength })
          else
            filterLoop extract wantStream curSize rest readBytes1
              (processedBytes + lineLength) maxLength l

/-- filterLogByStream (filter_log.go lines 112-164) for an in-memory source.
Seeking to the end measures curSize as the source length and seeking back to
the start cannot fail on an in-memory source, so the two SeekFailure paths
are absent; the buffered reader over the unchanging source yields the
bufReadResults trace.  The ring buffer is built with capacity tailLines
(propagating the invalid-capacity error) and the loop runs from zeroed
counters; its triple becomes the logFilterResult.  extract stands for the
external line classifier extractStreamFromLog, an opaque collaborator
declared outside this excerpt. -/
def filterLogByStream (extract : List Nat → Except String String) (src : List Nat)
    (tailLines : Int) (wantStream : String) : Except String logFilterResult :=
  let curSize : Int := src.length
  match newCircularLinkedList tailLines with
  | .error e => .error e
  | .ok l =>
    match filterLoop extract wantStream curSize (bufReadResults (eol.headD 0) src) 0 0 0 l with
    | .error e => .error e
    | .ok (l1, maxLength, processedBytes) =>
      .ok { logIndex := l1, maxLogLength := maxLength, processedBytes := processedBytes }

/-- The complete (delimiter-terminated) lines of a byte source, in order;
a trailing segment without the delimiter is dropped.  acc holds the bytes
of the line being assembled, most recent first. -/
def completeLinesGo (delim : Nat) (acc : List Nat) : List Nat → List (List Nat)
  | [] => []
  | b :: rest =>
    if b = delim then (b :: acc).reverse :: completeLinesGo delim [] rest
    else completeLinesGo delim (b :: acc) rest

/-- The complete lines of a byte source read from the start. -/
def completeLines (delim : Nat) (bs : List Nat) : List (List Nat) :=
  completeLinesGo delim [] bs

/-- A classifier that always succeeds, returning the stream tag g computes. -/
def okExtract (g : List Nat → String) : List Nat → Except String String :=
  fun line => .ok (g line)

/-- Inserting a list of items left to right. -/
def addAll (l : circularLinkedList) (xs : List indexItem) : circularLinkedList :=
  xs.foldl circularLinkedList.Add l

/-- Pure recursion computing what one loop pass over a list of complete
lines does to the accumulators: the final ring buffer, maxLength and
processedBytes. -/
def processLines (g : List Nat → String) (wantStream : String) :
    List (List Nat) → Int → Int → circularLinkedList →
    circularLinkedList × Int × Int
  | [], pb, ml, l => (l, ml, pb)
  | line :: rest, pb, ml, l =>
    let len : Int := line.length
    if g line = wantStream then
      processLines g wantStream rest (pb + len) (if len > ml then len else ml)
        (l.Add { offset := pb, length := len })
    else
      processLines g wantStream rest (pb + len) ml l

/-- The records the scan inserts for a list of complete lines, given the
running offset: one record per line of the wanted stream, whose offset is
the total length of all preceding complete lines and whose length is the
line's byte length. -/
def matchRecords (g : List Nat → String) (wantStream : String) :
    List (List Nat) → Int → List indexItem
  | [], _ => []
  | line :: rest, off =>
    if g line = wantStream then
      { offset := off, length := (line.length : Int) } ::
        matchRecords g wantStream rest (off + line.length)
    else
      matchRecords g wantStream rest (off + line.length)

/-- A concrete classifier for the spec's end-to-end scenarios: a line whose
first byte is 65 (the letter A) belongs to stream "A", 66 (the letter B) to
stream "B". -/
def tagOf (line : List Nat) : String :=
  if line.headD 0 = 65 then "A" else if line.headD 0 = 66 then "B" else "?"

/-- The first end-to-end scenario source: the bytes of "A:hello" plus
newline (8 bytes, stream A), "B:world" plus newline (8 bytes, stream B),
and "A:end" (5 bytes, no trailing delimiter, truncated). -/
def scenarioSrc1 : List Nat :=
  [65, 58, 104, 101, 108, 108, 111, 10] ++ [66, 58, 119, 111, 114, 108, 100, 10] ++
    [65, 58, 101, 110, 100]

/-- The second end-to-end scenario source: ten stream-A lines of 10 bytes
each, every line newline-terminated. -/
def scenarioSrc2 : List Nat :=
  (List.replicate 10 [65, 58, 120, 120, 120, 120, 120, 120, 120, 10]).flatten

/-- Basic well-formedness of a circular linked list state: the length field
counts the allocated nodes, never exceeds capacity, and the current pointer
designates an allocated node whenever any exists. -/
def ringWF (l : circularLinkedList) : Prop :=
  l.length = l.nodes.length ∧ l.length ≤ l.capacity ∧
    (l.length ≠ 0 → l.cur < l.nodes.length)

/-- The state newCircularLinkedList returns for a non-negative capacity. -/
def emptyRing (c : Nat) : circularLinkedList :=
  { capacity := c, length := 0, nodes := [], cur := 0 }

lemma newCircularLinkedList_nonneg (cap : Int) (h : 0 ≤ cap) :
    newCircularLinkedList cap = .ok (emptyRing cap.toNat) := by
  simp [newCircularLinkedList, emptyRing, not_lt.mpr h]

lemma newCircularLinkedList_neg (cap : Int) (h : cap < 0) :
    newCircularLinkedList cap = .error ("invalid capacity: " ++ toString cap) := by
  simp [newCircularLinkedList, h]

lemma ringWF_emptyRing (c : Nat) : ringWF (emptyRing c) := by
  simp [ringWF, emptyRing]

lemma Add_capacity_zero (l : circularLinkedList) (x : indexItem)
    (h : l.capacity = 0) : l.Add x = l := by
  simp [circularLinkedList.Add, h]

lemma capacity_Add (l : circularLinkedList) (x : indexItem) :
    (l.Add x).capacity = l.capacity := by
  unfold circularLinkedList.Add
  split
  · rfl
  · split
    · rfl
    · split <;> rfl

lemma ringWF_Add (l : circularLinkedList) (x : indexItem) (hwf : ringWF l) :
    ringWF (l.Add x) := by
  obtain ⟨hlen, hcap, hcur⟩ := hwf
  unfold circularLinkedList.Add
  split
  · exact ⟨hlen, hcap, hcur⟩
  · rename_i hc0
    split
    · rename_i h0
      refine ⟨by simp, ?_, by simp⟩
      show 1 ≤ l.capacity
      omega
    · rename_i h0
      split
      · rename_i hfull
        have hne : l.nodes.length ≠ 0 := by omega
        refine ⟨by simpa using hlen, by simpa using hcap, ?_⟩
        intro _
        simpa using Nat.mod_lt _ (Nat.pos_of_ne_zero hne)
      · rename_i hnfull
        have hc : l.cur < l.nodes.length := hcur h0
        have h1 : l.cur + 1 ≤ l.nodes.length := hc
        refine ⟨?_, ?_, ?_⟩
        case refine_2 =>
          show l.length + 1 ≤ l.capacity
          omega
        · simp [List.length_take, List.length_drop]
          omega
        · intro _
          simp [List.length_take, List.length_drop]
          omega

lemma length_Add_lt (l : circularLinkedList) (x : indexItem)
    (hc : l.capacity ≠ 0) (hlt : l.length < l.capacity) :
    (l.Add x).length = l.length + 1 := by
  by_cases h0 : l.length = 0
  · simp [circularLinkedList.Add, hc, h0]
  · have hne : l.length ≠ l.capacity := by omega
    simp [circularLinkedList.Add, hc, h0, hne]

lemma length_Add_full (l : circularLinkedList) (x : indexItem)
    (hc : l.capacity ≠ 0) (hfull : l.length = l.capacity) :
    (l.Add x).length = l.length := by
  have h0 : l.length ≠ 0 := by omega
  simp [circularLinkedList.Add, hc, h0, hfull]

lemma visitSeq_eq_rotate (l : circularLinkedList) (hwf : ringWF l) :
    l.visitSeq = l.nodes.rotate (l.cur + 1) := by
  obtain ⟨hlen, -, -⟩ := hwf
  unfold circularLinkedList.visitSeq
  split
  · rename_i h0
    have : l.nodes = [] := by
      have := hlen
      rw [h0] at this
      exact (List.length_eq_zero.mp this.symm)
    simp [this]
  · rename_i h0
    have hl : l.length = (l.nodes.rotate (l.cur + 1)).length := by
      rw [List.length_rotate]; exact hlen
    rw [hl, List.take_length]

lemma rotate_insert_after (ns : List indexItem) (c : Nat) (x : indexItem)
    (hc : c < ns.length) :
    (ns.take (c + 1) ++ x :: ns.drop (c + 1)).rotate (c + 2) =
      ns.rotate (c + 1) ++ [x] := by
  have hA : (ns.take (c + 1)).length = c + 1 := by
    rw [List.length_take]; omega
  have hAx : (ns.take (c + 1) ++ [x]).length = c + 2 := by
    simp [hA]
  have hM : ns.take (c + 1) ++ x :: ns.drop (c + 1) =
      (ns.take (c + 1) ++ [x]) ++ ns.drop (c + 1) := by
    simp
  have hlen : c + 2 ≤ ((ns.take (c + 1) ++ [x]) ++ ns.drop (c + 1)).length := by
    simp only [List.length_append, List.length_drop, hAx]
    omega
  rw [hM, List.rotate_eq_drop_append_take hlen]
  have hdrop : ((ns.take (c + 1) ++ [x]) ++ ns.drop (c + 1)).drop (c + 2) =
      ns.drop (c + 1) := by
    have h0 : ((ns.take (c + 1) ++ [x]) ++ ns.drop (c + 1)).drop
        ((ns.take (c + 1) ++ [x]).length + 0) = (ns.drop (c + 1)).drop 0 :=
      List.drop_append 0
    simpa [hAx] using h0
  have htake : ((ns.take (c + 1) ++ [x]) ++ ns.drop (c + 1)).take (c + 2) =
      ns.take (c + 1) ++ [x] := by
    have h0 : ((ns.take (c + 1) ++ [x]) ++ ns.drop (c + 1)).take
        ((ns.take (c + 1) ++ [x]).length + 0) =
        (ns.take (c + 1) ++ [x]) ++ (ns.drop (c + 1)).take 0 :=
      List.take_append 0
    simpa [hAx] using h0
  rw [hdrop, htake, List.rotate_eq_drop_append_take hc]
  simp

lemma rotate_overwrite (ns : List indexItem) (c : Nat) (x : indexItem)
    (hne : ns ≠ []) :
    (ns.set ((c + 1) % ns.length) x).rotate ((c + 1) % ns.length + 1) =
      (ns.rotate (c + 1)).tail ++ [x] := by
  have hpos : 0 < ns.length := List.length_pos.mpr hne
  set d := (c + 1) % ns.length with hd
  have hdlt : d < ns.length := Nat.mod_lt _ hpos
  have hset : ns.set d x = ns.take d ++ x :: ns.drop (d + 1) :=
    List.set_eq_take_cons_drop x hdlt
  have hA : (ns.take d).length = d := by
    rw [List.length_take]; omega
  have hAx : (ns.take d ++ [x]).length = d + 1 := by simp [hA]
  have hlen : d + 1 ≤ ((ns.take d ++ [x]) ++ ns.drop (d + 1)).length := by
    simp only [List.length_append, List.length_drop, hAx]
    omega
  have hM : ns.set d x = (ns.take d ++ [x]) ++ ns.drop (d + 1) := by
    simp [hset]
  rw [hM, List.rotate_eq_drop_append_take hlen]
  have hdrop : ((ns.take d ++ [x]) ++ ns.drop (d + 1)).drop (d + 1) =
      ns.drop (d + 1) := by
    have h0 : ((ns.take d ++ [x]) ++ ns.drop (d + 1)).drop
        ((ns.take d ++ [x]).length + 0) = (ns.drop (d + 1)).drop 0 :=
      List.drop_append 0
    simpa [hAx] using h0
  have htake : ((ns.take d ++ [x]) ++ ns.drop (d + 1)).take (d + 1) =
      ns.take d ++ [x] := by
    have h0 : ((ns.take d ++ [x]) ++ ns.drop (d + 1)).take
        ((ns.take d ++ [x]).length + 0) =
        (ns.take d ++ [x]) ++ (ns.drop (d + 1)).take 0 :=
      List.take_append 0
    simpa [hAx] using h0
  rw [hdrop, htake]
  have hrot : ns.rotate (c + 1) = ns.drop d ++ ns.take d := by
    rw [← List.rotate_mod, ← hd, List.rotate_eq_drop_append_take (le_of_lt hdlt)]
  have htail : (ns.drop d ++ ns.take d).tail = ns.drop (d + 1) ++ ns.take d := by
    rw [List.drop_eq_getElem_cons hdlt, List.cons_append, List.tail_cons]
  rw [hrot, htail, List.append_assoc]

lemma visitSeq_Add_lt (l : circularLinkedList) (x : indexItem)
    (hwf : ringWF l) (hc : l.capacity ≠ 0) (hlt : l.length < l.capacity) :
    (l.Add x).visitSeq = l.visitSeq ++ [x] := by
  obtain ⟨hlen, hcap, hcur⟩ := hwf
  by_cases h0 : l.length = 0
  · have hlen0 : l.nodes.length = 0 := by omega
    have hnil : l.nodes = [] := List.length_eq_zero.mp hlen0
    rw [visitSeq_eq_rotate _ (ringWF_Add l x ⟨hlen, hcap, hcur⟩)]
    simp [circularLinkedList.Add, hc, h0, circularLinkedList.visitSeq,
      List.rotate_singleton]
  · have hne : l.length ≠ l.capacity := by omega
    have hcl : l.cur < l.nodes.length := hcur h0
    rw [visitSeq_eq_rotate _ (ringWF_Add l x ⟨hlen, hcap, hcur⟩),
      visitSeq_eq_rotate _ ⟨hlen, hcap, hcur⟩]
    have hAdd : l.Add x =
        { l with length := l.length + 1,
                 nodes := l.nodes.take (l.cur + 1) ++ x :: l.nodes.drop (l.cur + 1),
                 cur := l.cur + 1 } := by
      simp [circularLinkedList.Add, hc, h0, hne]
    rw [hAdd]
    exact rotate_insert_after l.nodes l.cur x hcl

lemma visitSeq_Add_full (l : circularLinkedList) (x : indexItem)
    (hwf : ringWF l) (hc : l.capacity ≠ 0) (hfull : l.length = l.capacity) :
    (l.Add x).visitSeq = l.visitSeq.tail ++ [x] := by
  obtain ⟨hlen, hcap, hcur⟩ := hwf
  have h0 : l.length ≠ 0 := by omega
  have hnil : l.nodes ≠ [] := by
    intro h
    rw [h] at hlen
    simp at hlen
    omega
  rw [visitSeq_eq_rotate _ (ringWF_Add l x ⟨hlen, hcap, hcur⟩),
    visitSeq_eq_rotate _ ⟨hlen, hcap, hcur⟩]
  have hAdd : l.Add x =
      { l with cur := (l.cur + 1) % l.nodes.length,
               nodes := l.nodes.set ((l.cur + 1) % l.nodes.length) x } := by
    simp [circularLinkedList.Add, hc, h0, hfull]
  rw [hAdd]
  exact rotate_overwrite l.nodes l.cur x hnil

lemma addAll_append (l : circularLinkedList) (xs : List indexItem) (x : indexItem) :
    addAll l (xs ++ [x]) = (addAll l xs).Add x := by
  simp [addAll, List.foldl_append]

/-- Main ring-buffer lemma: inserting the items of xs in order into a fresh
ring of capacity C leaves a well-formed state whose capacity is unchanged,
whose length is min (xs.length) C, and whose visiting sequence is exactly
the last min (xs.length) C items of xs in insertion order. -/
lemma addAll_emptyRing_spec (C : Nat) (xs : List indexItem) :
    ringWF (addAll (emptyRing C) xs) ∧
      (addAll (emptyRing C) xs).capacity = C ∧
      (addAll (emptyRing C) xs).length = min xs.length C ∧
      (addAll (emptyRing C) xs).visitSeq = xs.drop (xs.length - C) := by
  induction xs using List.reverseRecOn with
  | nil =>
    refine ⟨ringWF_emptyRing C, rfl, by simp [addAll, emptyRing, circularLinkedList.Len], ?_⟩
    simp [addAll, emptyRing, circularLinkedList.visitSeq]
  | append_singleton xs x ih =>
    obtain ⟨hwf, hcap, hlen, hseq⟩ := ih
    rw [addAll_append]
    set S := addAll (emptyRing C) xs with hS
    by_cases hC : C = 0
    · have hAdd : S.Add x = S := Add_capacity_zero _ _ (by rw [hcap, hC])
      rw [hAdd]
      subst hC
      refine ⟨hwf, hcap, by simpa using hlen, ?_⟩
      rw [hseq]
      simp
    · by_cases hsm : xs.length < C
      · have hlt : S.length < S.capacity := by rw [hlen, hcap]; omega
        have hc0 : S.capacity ≠ 0 := by rw [hcap]; exact hC
        refine ⟨ringWF_Add S x hwf, by rw [capacity_Add, hcap], ?_, ?_⟩
        · rw [length_Add_lt S x hc0 hlt, hlen]
          simp
          omega
        · rw [visitSeq_Add_lt S x hwf hc0 hlt, hseq]
          have h1 : xs.length - C = 0 := by omega
          have h2 : (xs ++ [x]).length - C = 0 := by simp; omega
          rw [h1, h2]
          simp
      · have hfull : S.length = S.capacity := by rw [hlen, hcap]; omega
        have hc0 : S.capacity ≠ 0 := by rw [hcap]; exact hC
        refine ⟨ringWF_Add S x hwf, by rw [capacity_Add, hcap], ?_, ?_⟩
        · rw [length_Add_full S x hc0 hfull, hlen]
          simp
          omega
        · rw [visitSeq_Add_full S x hwf hc0 hfull, hseq, List.tail_drop]
          have h3 : (xs ++ [x]).length - C = (xs.length - C) + 1 := by simp; omega
          rw [h3, List.drop_append_of_le_length (by omega)]

/-- One loop iteration whose read hit io.EOF, or whose cumulative read count
exceeds the measured size, breaks out at once: the accumulated triple is
returned as success and the line contributes nothing. -/
lemma filterLoop_break (extract : List Nat → Except String String) (w : String)
    (curSize : Int) (r : readResult) (rest : List readResult)
    (rb pb ml : Int) (l : circularLinkedList)
    (h : r.err = .eofErr ∨ rb + (r.line.length : Int) > curSize) :
    filterLoop extract w curSize (r :: rest) rb pb ml l = .ok (l, ml, pb) := by
  rw [filterLoop, if_pos h]

/-- One loop iteration whose read returned an error other than io.EOF within
the measured size aborts the call with the wrapped read error. -/
lemma filterLoop_readError (extract : List Nat → Except String String) (w : String)
    (curSize : Int) (line : List Nat) (msg : String) (rest : List readResult)
    (rb pb ml : Int) (l : circularLinkedList)
    (hle : rb + (line.length : Int) ≤ curSize) :
    filterLoop extract w curSize ({ line := line, err := .other msg } :: rest) rb pb ml l =
      .error ("read line: " ++ msg) := by
  rw [filterLoop, if_neg (by simp; omega)]

/-- One loop iteration on a complete line: the classifier runs; its error is
returned as the final answer unchanged; on success the accumulators advance,
recording the line when its stream matches. -/
lemma filterLoop_complete (extract : List Nat → Except String String) (w : String)
    (curSize : Int) (line : List Nat) (rest : List readResult)
    (rb pb ml : Int) (l : circularLinkedList)
    (hle : rb + (line.length : Int) ≤ curSize) :
    filterLoop extract w curSize ({ line := line, err := .noErr } :: rest) rb pb ml l =
      match extract line with
      | .error e => .error e
      | .ok streamType =>
        if streamType = w then
          filterLoop extract w curSize rest (rb + line.length) (pb + line.length)
            (if (line.length : Int) > ml then (line.length : Int) else ml)
            (l.Add { offset := pb, length := (line.length : Int) })
        else
          filterLoop extract w curSize rest (rb + line.length) (pb + line.length) ml l := by
  rw [filterLoop, if_neg (by simp; omega)]

/-- Characterization of the loop over the ReadBytes trace of an in-memory
byte segment whose bytes all lie within the measured size, for a classifier
that always succeeds: the loop succeeds and its effect on the accumulators
is a pure pass over the complete lines of the segment. -/
lemma filterLoop_readLinesGo (g : List Nat → String) (w : String) (delim : Nat)
    (curSize : Int) (bs : List Nat) :
    ∀ (acc : List Nat) (rb pb ml : Int) (l : circularLinkedList),
    rb + acc.length + bs.length ≤ curSize →
    filterLoop (okExtract g) w curSize (readLinesGo delim acc bs) rb pb ml l =
      .ok (processLines g w (completeLinesGo delim acc bs) pb ml l) := by
  induction bs with
  | nil =>
    intro acc rb pb ml l hbound
    by_cases hacc : acc.isEmpty
    · simp [readLinesGo, hacc, completeLinesGo, filterLoop, processLines]
    · rw [readLinesGo, if_neg hacc,
        filterLoop_break _ _ _ _ _ _ _ _ _ (Or.inl rfl)]
      simp [completeLinesGo, processLines]
  | cons b rest ih =>
    intro acc rb pb ml l hbound
    rw [readLinesGo, completeLinesGo]
    by_cases hb : b = delim
    · rw [if_pos hb, if_pos hb]
      have hlinelen : (((b :: acc).reverse.length : Int)) = acc.length + 1 := by
        simp
      rw [filterLoop_complete _ _ _ _ _ _ _ _ _
        (by simp at hbound ⊢; omega)]
      show (if g ((b :: acc).reverse) = w then _ else _) = _
      rw [processLines]
      by_cases hmatch : g ((b :: acc).reverse) = w
      · rw [if_pos hmatch, if_pos hmatch]
        rw [ih [] (rb + (b :: acc).reverse.length) _ _ _
          (by simp at hbound ⊢; omega)]
      · rw [if_neg hmatch, if_neg hmatch]
        rw [ih [] (rb + (b :: acc).reverse.length) _ _ _
          (by simp at hbound ⊢; omega)]
    · rw [if_neg hb, if_neg hb]
      exact ih (b :: acc) rb pb ml l (by simp at hbound ⊢; omega)

/-- A successful scan with a total classifier: the whole call reduces to a
pure pass over the complete lines of the source, every byte of which lies
within the measured size. -/
lemma filterLogByStream_okExtract (g : List Nat → String) (src : List Nat)
    (t : Int) (w : String) (ht : 0 ≤ t) :
    filterLogByStream (okExtract g) src t w =
      .ok { logIndex := (processLines g w (completeLines 10 src) 0 0 (emptyRing t.toNat)).1,
            maxLogLength := (processLines g w (completeLines 10 src) 0 0 (emptyRing t.toNat)).2.1,
            processedBytes := (processLines g w (completeLines 10 src) 0 0 (emptyRing t.toNat)).2.2 } := by
  simp only [filterLogByStream, newCircularLinkedList_nonneg t ht, bufReadResults]
  rw [filterLoop_readLinesGo g w (eol.headD 0) _ src [] 0 0 0 (emptyRing t.toNat) (by simp)]
  rfl

lemma addAll_cons (l : circularLinkedList) (x : indexItem) (xs : List indexItem) :
    addAll l (x :: xs) = addAll (l.Add x) xs := by
  simp [addAll]

lemma max_of_ite_gt (a b : Int) : (if b > a then b else a) = max a b := by
  rcases lt_or_le a b with h | h
  · rw [if_pos h, max_eq_right h.le]
  · rw [if_neg (not_lt.mpr h), max_eq_left h]

lemma processLines_processedBytes (g : List Nat → String) (w : String)
    (lines : List (List Nat)) :
    ∀ (pb ml : Int) (l : circularLinkedList),
    (processLines g w lines pb ml l).2.2 =
      pb + (lines.map fun line => (line.length : Int)).sum := by
  induction lines with
  | nil => intro pb ml l; simp [processLines]
  | cons line rest ih =>
    intro pb ml l
    rw [processLines]
    by_cases h : g line = w
    · rw [if_pos h, ih]
      simp
      ring
    · rw [if_neg h, ih]
      simp
      ring

lemma processLines_maxLength (g : List Nat → String) (w : String)
    (lines : List (List Nat)) :
    ∀ (pb ml : Int) (l : circularLinkedList),
    (processLines g w lines pb ml l).2.1 =
      ((lines.filter fun line => g line = w).map
        fun line => (line.length : Int)).foldl max ml := by
  induction lines with
  | nil => intro pb ml l; simp [processLines]
  | cons line rest ih =>
    intro pb ml l
    rw [processLines]
    by_cases h : g line = w
    · rw [if_pos h, ih, max_of_ite_gt]
      simp [h]
    · rw [if_neg h, ih]
      simp [h]

lemma processLines_ring (g : List Nat → String) (w : String)
    (lines : List (List Nat)) :
    ∀ (pb ml : Int) (l : circularLinkedList),
    (processLines g w lines pb ml l).1 = addAll l (matchRecords g w lines pb) := by
  induction lines with
  | nil => intro pb ml l; simp [processLines, matchRecords, addAll]
  | cons line rest ih =>
    intro pb ml l
    rw [processLines, matchRecords]
    by_cases h : g line = w
    · rw [if_pos h, if_pos h, ih, addAll_cons]
    · rw [if_neg h, if_neg h, ih]

lemma foldl_max_spec (xs : List Int) :
    ∀ (a : Int), a ≤ xs.foldl max a ∧ (∀ x ∈ xs, x ≤ xs.foldl max a) ∧
      (xs.foldl max a = a ∨ xs.foldl max a ∈ xs) := by
  induction xs with
  | nil => intro a; simp
  | cons y ys ih =>
    intro a
    obtain ⟨h1, h2, h3⟩ := ih (max a y)
    have hfold : (y :: ys).foldl max a = ys.foldl max (max a y) := rfl
    refine ⟨?_, ?_, ?_⟩
    · rw [hfold]
      exact le_trans (le_max_left a y) h1
    · intro z hz
      rw [hfold]
      rcases List.mem_cons.mp hz with hz | hz
      · rw [hz]
        exact le_trans (le_max_right a y) h1
      · exact h2 z hz
    · rw [hfold]
      rcases h3 with h3 | h3
      · rcases max_choice a y with hm | hm
        · left
          rw [h3, hm]
        · right
          rw [h3, hm]
          exact List.mem_cons_self y ys
      · right
        exact List.mem_cons_of_mem y h3

lemma visitFrom_collect (L : List indexItem) :
    ∀ (s : List indexItem),
    visitFrom (fun x s => .ok (s ++ [x])) L s = .ok (s ++ L) := by
  induction L with
  | nil => intro s; simp [visitFrom]
  | cons x xs ih =>
    intro s
    rw [visitFrom]
    simp [ih]

/-- Running VisitAll with the collecting visitor returns exactly the visit
sequence: the items the visitor is invoked on, in visiting order. -/
lemma VisitAll_collect (l : circularLinkedList) :
    l.VisitAll (fun x s => .ok (s ++ [x])) [] = .ok l.visitSeq := by
  unfold circularLinkedList.VisitAll circularLinkedList.visitSeq
  split
  · rfl
  · rw [visitFrom_collect]
    simp [circularLinkedList.visitSeq]

/-- When the source ends with the delimiter, its complete lines cover it
entirely: their lengths sum to the whole byte count. -/
lemma completeLinesGo_sum (delim : Nat) (bs : List Nat) :
    ∀ (acc : List Nat), bs.getLast? = some delim →
    ((completeLinesGo delim acc bs).map fun line => (line.length : Int)).sum =
      acc.length + bs.length := by
  induction bs with
  | nil => intro acc h; simp at h
  | cons b rest ih =>
    intro acc h
    rw [completeLinesGo]
    by_cases hb : b = delim
    · rw [if_pos hb]
      cases rest with
      | nil => simp [completeLinesGo]
      | cons r0 rs =>
        have hlast : (r0 :: rs).getLast? = some delim := by
          rw [List.getLast?_cons_cons] at h
          exact h
        rw [List.map_cons, List.sum_cons, ih [] hlast]
        simp
        omega
    · rw [if_neg hb]
      cases rest with
      | nil =>
        simp at h
        exact absurd h hb
      | cons r0 rs =>
        have hlast : (r0 :: rs).getLast? = some delim := by
          rw [List.getLast?_cons_cons] at h
          exact h
        rw [ih (b :: acc) hlast]
        simp
        omega

/-- Every complete line is nonempty: it contains at least its delimiter. -/
lemma completeLinesGo_ne_nil (delim : Nat) (bs : List Nat) :
    ∀ (acc line : List Nat), line ∈ completeLinesGo delim acc bs → line ≠ [] := by
  induction bs with
  | nil => intro acc line h; simp [completeLinesGo] at h
  | cons b rest ih =>
    intro acc line h
    rw [completeLinesGo] at h
    by_cases hb : b = delim
    · rw [if_pos hb] at h
      rcases List.mem_cons.mp h with h | h
      · subst h
        simp
      · exact ih [] line h
    · rw [if_neg hb] at h
      exact ih (b :: acc) line h

/-- C1: for every capacity C ≥ 0 and every finite sequence xs of N items
inserted via Add into a ring index constructed with capacity C: if N ≥ C,
Len returns C and VisitAll visits exactly the last C inserted items in
their original insertion order; if N < C, Len returns N and VisitAll
visits all N items in insertion order. -/
theorem claim_C1 (C : Int) (hC : 0 ≤ C) (xs : List indexItem) :
    newCircularLinkedList C = .ok (emptyRing C.toNat) ∧
    ((xs.length : Int) ≥ C →
      (addAll (emptyRing C.toNat) xs).Len = C.toNat ∧
      (addAll (emptyRing C.toNat) xs).VisitAll (fun x s => .ok (s ++ [x])) [] =
        .ok (xs.drop (xs.length - C.toNat))) ∧
    ((xs.length : Int) < C →
      (addAll (emptyRing C.toNat) xs).Len = xs.length ∧
      (addAll (emptyRing C.toNat) xs).VisitAll (fun x s => .ok (s ++ [x])) [] =
        .ok xs) := by
  obtain ⟨hwf, hcap, hlen, hseq⟩ := addAll_emptyRing_spec C.toNat xs
  refine ⟨newCircularLinkedList_nonneg C hC, ?_, ?_⟩
  · intro hge
    constructor
    · rw [circularLinkedList.Len, hlen]
      omega
    · rw [VisitAll_collect, hseq]
  · intro hlt
    constructor
    · rw [circularLinkedList.Len, hlen]
      omega
    · rw [VisitAll_collect, hseq]
      have hz : xs.length - C.toNat = 0 := by omega
      rw [hz]
      simp

theorem claim_C1_witness :
    (0 : Int) ≤ 2 ∧
    (addAll (emptyRing (2 : Int).toNat) [⟨0, 1⟩, ⟨1, 2⟩, ⟨2, 3⟩]).Len = (2 : Int).toNat ∧
    (addAll (emptyRing (2 : Int).toNat) [⟨0, 1⟩, ⟨1, 2⟩, ⟨2, 3⟩]).VisitAll
      (fun x s => .ok (s ++ [x])) [] = .ok [⟨1, 2⟩, ⟨2, 3⟩] := by
  have h := (claim_C1 2 (by decide) [⟨0, 1⟩, ⟨1, 2⟩, ⟨2, 3⟩]).2.1 (by decide)
  exact ⟨by decide, h.1, h.2⟩

/-- C2: for every source and every successful scan, processedBytes equals
the sum of the byte lengths of all complete (delimiter-terminated) lines,
whichever stream each belongs to; the trailing incomplete line is not among
the complete lines and so contributes nothing. -/
theorem claim_C2 (g : List Nat → String) (src : List Nat) (t : Int)
    (w : String) (ht : 0 ≤ t) :
    ∃ r, filterLogByStream (okExtract g) src t w = .ok r ∧
      r.processedBytes =
        ((completeLines 10 src).map fun line => (line.length : Int)).sum := by
  refine ⟨_, filterLogByStream_okExtract g src t w ht, ?_⟩
  show (processLines g w (completeLines 10 src) 0 0 (emptyRing t.toNat)).2.2 = _
  rw [processLines_processedBytes]
  ring

theorem claim_C2_witness :
    (0 : Int) ≤ 5 ∧
    (∃ r, filterLogByStream (okExtract tagOf) scenarioSrc1 5 "A" = .ok r ∧
      r.processedBytes =
        ((completeLines 10 scenarioSrc1).map fun line => (line.length : Int)).sum) :=
  ⟨by decide, claim_C2 tagOf scenarioSrc1 5 "A" (by decide)⟩

/-- C3: for every successful scan, maxLogLength is the maximum byte length
among the complete lines classified into wantStream — an upper bound on all
of them, attained by one of them when any matched — and 0 when none
matched. -/
theorem claim_C3 (g : List Nat → String) (src : List Nat) (t : Int)
    (w : String) (ht : 0 ≤ t) :
    ∃ r, filterLogByStream (okExtract g) src t w = .ok r ∧
      (∀ line ∈ (completeLines 10 src).filter (fun line => g line = w),
        (line.length : Int) ≤ r.maxLogLength) ∧
      ((completeLines 10 src).filter (fun line => g line = w) = [] →
        r.maxLogLength = 0) ∧
      ((completeLines 10 src).filter (fun line => g line = w) ≠ [] →
        ∃ line ∈ (completeLines 10 src).filter (fun line => g line = w),
          r.maxLogLength = (line.length : Int)) := by
  have hval : (processLines g w (completeLines 10 src) 0 0 (emptyRing t.toNat)).2.1 =
      (((completeLines 10 src).filter (fun line => g line = w)).map
        fun line => (line.length : Int)).foldl max 0 :=
    processLines_maxLength g w (completeLines 10 src) 0 0 (emptyRing t.toNat)
  obtain ⟨h0le, hub, hatt⟩ := foldl_max_spec
    (((completeLines 10 src).filter (fun line => g line = w)).map
      fun line => (line.length : Int)) 0
  refine ⟨_, filterLogByStream_okExtract g src t w ht, ?_, ?_, ?_⟩
  · intro line hline
    show (line.length : Int) ≤
      (processLines g w (completeLines 10 src) 0 0 (emptyRing t.toNat)).2.1
    rw [hval]
    exact hub _ (List.mem_map_of_mem _ hline)
  · intro hempty
    show (processLines g w (completeLines 10 src) 0 0 (emptyRing t.toNat)).2.1 = 0
    rw [hval, hempty]
    rfl
  · intro hne
    obtain ⟨line0, hline0⟩ := List.exists_mem_of_ne_nil _ hne
    have h1 : line0 ≠ [] :=
      completeLinesGo_ne_nil 10 src [] line0 (List.mem_of_mem_filter hline0)
    have hlen0 : 1 ≤ (line0.length : Int) := by
      have := List.length_pos.mpr h1
      omega
    rcases hatt with hatt | hatt
    · exfalso
      have hle := hub _ (List.mem_map_of_mem _ hline0)
      rw [hatt] at hle
      omega
    · obtain ⟨line, hline, heq⟩ := List.mem_map.mp hatt
      refine ⟨line, hline, ?_⟩
      show (processLines g w (completeLines 10 src) 0 0 (emptyRing t.toNat)).2.1 = _
      rw [hval]
      exact heq.symm

theorem claim_C3_witness :
    (0 : Int) ≤ 5 ∧
    (∃ r, filterLogByStream (okExtract tagOf) scenarioSrc1 5 "A" = .ok r ∧
      (∀ line ∈ (completeLines 10 scenarioSrc1).filter (fun line => tagOf line = "A"),
        (line.length : Int) ≤ r.maxLogLength) ∧
      ((completeLines 10 scenarioSrc1).filter (fun line => tagOf line = "A") = [] →
        r.maxLogLength = 0) ∧
      ((completeLines 10 scenarioSrc1).filter (fun line => tagOf line = "A") ≠ [] →
        ∃ line ∈ (completeLines 10 scenarioSrc1).filter (fun line => tagOf line = "A"),
          r.maxLogLength = (line.length : Int))) :=
  ⟨by decide, claim_C3 tagOf scenarioSrc1 5 "A" (by decide)⟩

/-- C4: each complete line of the wanted stream is recorded as a record
whose offset is the total byte length of all complete lines (of either
stream) preceding it and whose length is its own byte length — the final
index is exactly those records inserted in order (matchRecords), and its
visiting sequence is the last min(count, tailCount) of them; the two
end-to-end scenarios come out as the spec states. -/
theorem claim_C4 :
    (∀ (g : List Nat → String) (src : List Nat) (t : Int) (w : String), 0 ≤ t →
      ∃ r, filterLogByStream (okExtract g) src t w = .ok r ∧
        r.logIndex = addAll (emptyRing t.toNat)
          (matchRecords g w (completeLines 10 src) 0) ∧
        r.logIndex.visitSeq =
          (matchRecords g w (completeLines 10 src) 0).drop
            ((matchRecords g w (completeLines 10 src) 0).length - t.toNat)) ∧
    (filterLogByStream (okExtract tagOf) scenarioSrc1 5 "A").map
        (fun r => (r.logIndex.visitSeq, r.logIndex.Len, r.processedBytes,
          r.maxLogLength)) =
      .ok ([⟨0, 8⟩], 1, 16, 8) ∧
    (filterLogByStream (okExtract tagOf) scenarioSrc2 3 "A").map
        (fun r => (r.logIndex.visitSeq, r.logIndex.Len)) =
      .ok ([⟨70, 10⟩, ⟨80, 10⟩, ⟨90, 10⟩], 3) := by
  refine ⟨?_, by rfl, by rfl⟩
  intro g src t w ht
  refine ⟨_, filterLogByStream_okExtract g src t w ht, ?_, ?_⟩
  · show (processLines g w (completeLines 10 src) 0 0 (emptyRing t.toNat)).1 = _
    exact processLines_ring g w (completeLines 10 src) 0 0 (emptyRing t.toNat)
  · show (processLines g w (completeLines 10 src) 0 0 (emptyRing t.toNat)).1.visitSeq = _
    rw [processLines_ring g w (completeLines 10 src) 0 0 (emptyRing t.toNat)]
    exact (addAll_emptyRing_spec t.toNat
      (matchRecords g w (completeLines 10 src) 0)).2.2.2

theorem claim_C4_witness :
    (0 : Int) ≤ 3 ∧
    (∃ r, filterLogByStream (okExtract tagOf) scenarioSrc2 3 "A" = .ok r ∧
      r.logIndex = addAll (emptyRing (3 : Int).toNat)
        (matchRecords tagOf "A" (completeLines 10 scenarioSrc2) 0) ∧
      r.logIndex.visitSeq =
        (matchRecords tagOf "A" (completeLines 10 scenarioSrc2) 0).drop
          ((matchRecords tagOf "A" (completeLines 10 scenarioSrc2) 0).length -
            (3 : Int).toNat)) :=
  ⟨by decide, claim_C4.1 tagOf scenarioSrc2 3 "A" (by decide)⟩

/-- C5: an iteration whose read hit end-of-stream, or whose cumulative byte
count exceeds the length measured at scan start, stops the scan at once:
the line in hand is discarded — neither classified, nor counted in
processedBytes, nor inserted — and the accumulated triple is returned as a
success, never an error; accordingly a whole in-memory scan with a total
classifier always returns a successful result. -/
theorem claim_C5 :
    (∀ (extract : List Nat → Except String String) (w : String) (curSize : Int)
      (r : readResult) (rest : List readResult) (rb pb ml : Int)
      (l : circularLinkedList),
      r.err = .eofErr ∨ rb + (r.line.length : Int) > curSize →
      filterLoop extract w curSize (r :: rest) rb pb ml l = .ok (l, ml, pb)) ∧
    (∀ (g : List Nat → String) (src : List Nat) (t : Int) (w : String), 0 ≤ t →
      ∃ res, filterLogByStream (okExtract g) src t w = .ok res) := by
  constructor
  · intro extract w curSize r rest rb pb ml l h
    exact filterLoop_break extract w curSize r rest rb pb ml l h
  · intro g src t w ht
    exact ⟨_, filterLogByStream_okExtract g src t w ht⟩

theorem claim_C5_witness :
    (({ line := [65], err := .eofErr } : readResult).err = .eofErr ∨
      (0 : Int) + ((([65] : List Nat).length : Nat) : Int) > 5) ∧
    filterLoop (okExtract fun _ => "A") "A" 5
      [{ line := [65], err := .eofErr }] 0 7 9 (emptyRing 1) = .ok (emptyRing 1, 9, 7) ∧
    (0 : Int) ≤ 1 ∧
    (∃ res, filterLogByStream (okExtract fun _ => "A") [65, 10] 1 "A" = .ok res) := by
  refine ⟨Or.inl rfl, ?_, by decide, ?_⟩
  · exact claim_C5.1 (okExtract fun _ => "A") "A" 5 _ _ 0 7 9 (emptyRing 1) (Or.inl rfl)
  · exact claim_C5.2 (fun _ => "A") [65, 10] 1 "A" (by decide)

/-- C6: constructing the ring index with a negative capacity fails with the
invalid-capacity error and yields no index; any capacity ≥ 0 yields an
empty index of size 0; and filterLogByStream with tailLines < 0 fails with
the very same error for every source, classifier and stream — before any
line affects the outcome. -/
theorem claim_C6 :
    (∀ c : Int, c < 0 →
      newCircularLinkedList c = .error ("invalid capacity: " ++ toString c)) ∧
    (∀ c : Int, 0 ≤ c →
      newCircularLinkedList c = .ok (emptyRing c.toNat) ∧
      (emptyRing c.toNat).Len = 0 ∧ (emptyRing c.toNat).visitSeq = []) ∧
    (∀ (extract : List Nat → Except String String) (src : List Nat) (t : Int)
      (w : String), t < 0 →
      filterLogByStream extract src t w =
        .error ("invalid capacity: " ++ toString t)) := by
  refine ⟨fun c hc => newCircularLinkedList_neg c hc, ?_, ?_⟩
  · intro c hc
    exact ⟨newCircularLinkedList_nonneg c hc, rfl, rfl⟩
  · intro extract src t w ht
    simp only [filterLogByStream, newCircularLinkedList_neg t ht]

theorem claim_C6_witness :
    (-2 : Int) < 0 ∧
    newCircularLinkedList (-2) = .error ("invalid capacity: " ++ toString (-2 : Int)) ∧
    filterLogByStream (okExtract fun _ => "A") [65, 10] (-2) "A" =
      .error ("invalid capacity: " ++ toString (-2 : Int)) :=
  ⟨by decide, claim_C6.1 (-2) (by decide),
    claim_C6.2.2 (okExtract fun _ => "A") [65, 10] (-2) "A" (by decide)⟩

/-- C7: on a ring index of capacity 0, after any sequence of Add calls, Len
is 0, VisitAll returns its state untouched without ever invoking the
visitor, and every further Add is a no-op. -/
theorem claim_C7 (xs : List indexItem) (x : indexItem) :
    newCircularLinkedList 0 = .ok (emptyRing 0) ∧
    (addAll (emptyRing 0) xs).Len = 0 ∧
    (∀ (σ : Type) (f : indexItem → σ → Except String σ) (s : σ),
      (addAll (emptyRing 0) xs).VisitAll f s = .ok s) ∧
    (addAll (emptyRing 0) xs).Add x = addAll (emptyRing 0) xs := by
  obtain ⟨hwf, hcap, hlen, hseq⟩ := addAll_emptyRing_spec 0 xs
  have hlen0 : (addAll (emptyRing 0) xs).length = 0 := by
    rw [hlen]
    omega
  refine ⟨rfl, hlen0, ?_, ?_⟩
  · intro σ f s
    rw [circularLinkedList.VisitAll, if_pos hlen0]
  · exact Add_capacity_zero _ x hcap

/-- C8: when the classifier fails on a complete line, the scan aborts at
that point and the call returns the classifier's error unchanged, with no
result value; a read error other than end-of-stream likewise terminates the
call with the wrapped read-line error and no result value. -/
theorem claim_C8 :
    (∀ (extract : List Nat → Except String String) (w : String) (curSize : Int)
      (line : List Nat) (rest : List readResult) (rb pb ml : Int)
      (l : circularLinkedList) (e : String),
      rb + (line.length : Int) ≤ curSize → extract line = .error e →
      filterLoop extract w curSize ({ line := line, err := .noErr } :: rest)
        rb pb ml l = .error e) ∧
    (∀ (extract : List Nat → Except String String) (w : String) (curSize : Int)
      (line : List Nat) (msg : String) (rest : List readResult) (rb pb ml : Int)
      (l : circularLinkedList),
      rb + (line.length : Int) ≤ curSize →
      filterLoop extract w curSize ({ line := line, err := .other msg } :: rest)
        rb pb ml l = .error ("read line: " ++ msg)) := by
  constructor
  · intro extract w curSize line rest rb pb ml l e hle herr
    rw [filterLoop_complete extract w curSize line rest rb pb ml l hle, herr]
  · intro extract w curSize line msg rest rb pb ml l hle
    exact filterLoop_readError extract w curSize line msg rest rb pb ml l hle

theorem claim_C8_witness :
    ((0 : Int) + ((([66, 10] : List Nat).length : Nat) : Int) ≤ 4) ∧
    ((fun _ => Except.error "bad line" : List Nat → Except String String) [66, 10] =
      .error "bad line") ∧
    filterLoop (fun _ => .error "bad line") "A" 4
      [{ line := [66, 10], err := .noErr }] 0 0 0 (emptyRing 1) = .error "bad line" ∧
    filterLoop (okExtract fun _ => "A") "A" 4
      [{ line := [66, 10], err := .other "disk gone" }] 0 0 0 (emptyRing 1) =
      .error ("read line: " ++ "disk gone") := by
  refine ⟨by decide, rfl, ?_, ?_⟩
  · exact claim_C8.1 (fun _ => .error "bad line") "A" 4 [66, 10] [] 0 0 0
      (emptyRing 1) "bad line" (by decide) rfl
  · exact claim_C8.2 (okExtract fun _ => "A") "A" 4 [66, 10] "disk gone" [] 0 0 0
      (emptyRing 1) (by decide)

/-- C9: the scan is deterministic — two runs over the same source bytes with
the same tail count, stream and classifier yield results agreeing in index
contents (visiting sequence and Len), maxLogLength and processedBytes. -/
theorem claim_C9 (extract : List Nat → Except String String) (src : List Nat)
    (t : Int) (w : String) (r1 r2 : logFilterResult)
    (h1 : filterLogByStream extract src t w = .ok r1)
    (h2 : filterLogByStream extract src t w = .ok r2) :
    r1.logIndex.visitSeq = r2.logIndex.visitSeq ∧
    r1.logIndex.Len = r2.logIndex.Len ∧
    r1.maxLogLength = r2.maxLogLength ∧
    r1.processedBytes = r2.processedBytes := by
  have h12 : r1 = r2 := Except.ok.inj (h1.symm.trans h2)
  rw [h12]
  exact ⟨rfl, rfl, rfl, rfl⟩

theorem claim_C9_witness :
    filterLogByStream (okExtract tagOf) scenarioSrc1 5 "A" =
      .ok { logIndex := { capacity := 5, length := 1,
                          nodes := [{ offset := 0, length := 8 }], cur := 0 },
            maxLogLength := 8, processedBytes := 16 } ∧
    (({ logIndex := { capacity := 5, length := 1,
                      nodes := [{ offset := 0, length := 8 }], cur := 0 },
        maxLogLength := 8, processedBytes := 16 } : logFilterResult).logIndex.visitSeq =
      ({ logIndex := { capacity := 5, length := 1,
                       nodes := [{ offset := 0, length := 8 }], cur := 0 },
         maxLogLength := 8, processedBytes := 16 } : logFilterResult).logIndex.visitSeq) := by
  have hr : filterLogByStream (okExtract tagOf) scenarioSrc1 5 "A" =
      .ok { logIndex := { capacity := 5, length := 1,
                          nodes := [{ offset := 0, length := 8 }], cur := 0 },
            maxLogLength := 8, processedBytes := 16 } := by rfl
  exact ⟨hr, (claim_C9 (okExtract tagOf) scenarioSrc1 5 "A" _ _ hr hr).1⟩

/-- C10: a final line whose delimiter lands exactly on the measured length
is complete: the truncation test is a strict comparison, so the iteration
proceeds — the line is classified, counted and, when matching, inserted —
and a source ending in the delimiter has every byte counted in
processedBytes. -/
theorem claim_C10 (g : List Nat → String) (src : List Nat) (t : Int)
    (w : String) (ht : 0 ≤ t) (hlast : src.getLast? = some 10) :
    (∃ r, filterLogByStream (okExtract g) src t w = .ok r ∧
      r.processedBytes = (src.length : Int)) ∧
    (∀ (extract : List Nat → Except String String) (w2 s : String)
      (curSize : Int) (line : List Nat) (rest : List readResult) (rb pb ml : Int)
      (l : circularLinkedList),
      rb + (line.length : Int) = curSize → extract line = .ok s →
      filterLoop extract w2 curSize ({ line := line, err := .noErr } :: rest)
        rb pb ml l =
        if s = w2 then
          filterLoop extract w2 curSize rest curSize (pb + line.length)
            (if (line.length : Int) > ml then (line.length : Int) else ml)
            (l.Add { offset := pb, length := (line.length : Int) })
        else
          filterLoop extract w2 curSize rest curSize (pb + line.length) ml l) := by
  constructor
  · refine ⟨_, filterLogByStream_okExtract g src t w ht, ?_⟩
    show (processLines g w (completeLines 10 src) 0 0 (emptyRing t.toNat)).2.2 = _
    rw [processLines_processedBytes, completeLines,
      completeLinesGo_sum 10 src [] hlast]
    simp
  · intro extract w2 s curSize line rest rb pb ml l hb hex
    rw [filterLoop_complete extract w2 curSize line rest rb pb ml l (le_of_eq hb),
      hex, hb]

theorem claim_C10_witness :
    (0 : Int) ≤ 1 ∧ ([65, 10] : List Nat).getLast? = some 10 ∧
    (∃ r, filterLogByStream (okExtract fun _ => "A") [65, 10] 1 "A" = .ok r ∧
      r.processedBytes = ((([65, 10] : List Nat).length : Nat) : Int)) := by
  refine ⟨by decide, by decide, ?_⟩
  exact (claim_C10 (fun _ => "A") [65, 10] 1 "A" (by decide) (by decide)).1
